import Mathlib

/-!
Verification of the wavetable oscillator (`src/wavetable1.c`, truncating
read policy, and `src/wavetable2.c`, linearly interpolating read policy).

Modelling conventions:
* Float arithmetic is idealised as exact arithmetic in a linear ordered
  field `α`; the oscillator core is generic in `α` so that concrete runs
  can be evaluated over `ℚ` while the sine tables live over `ℝ`.
  The double literal `6.283185307179586` (`TWOPI`) denotes `2 * π` in
  this idealisation, and `8. * atan(1.)` is kept literally.
* A table (C array of `float`) is a `List`; a read through a possibly
  out-of-range index returns `Option`: `none` models an access outside
  the allocation (undefined behaviour in C), `some v` an in-range read
  of the stored value `v`.
* The C cast `(int)x` truncates toward zero (`ctrunc`).
* The while loop `while (n > TABLE_LENGTH) n -= TABLE_LENGTH;` becomes
  the well-founded recursion `wrap`.  Its guard carries the extra
  conjunct `0 < L` only to make the function total: for `L = 0` the C
  loop would not terminate, and no claim exercises that case.
* The constant table length `TABLE_LENGTH = 1024` is kept, but the
  oscillator definitions are parameterised by the length `L`, exactly as
  the specification's claims are.
-/

namespace Wavetable

/-- Sample rate constant `SAMPLE_RATE (44100.)` from both source files. -/
def SAMPLE_RATE (α : Type) [Field α] : α := 44100

/-- Table length constant `TABLE_LENGTH 1024` from both source files. -/
def TABLE_LENGTH : ℕ := 1024

/-- Amplitude constant `MAX_AMP (0.5)` from both source files. -/
def MAX_AMP (α : Type) [Field α] : α := 1 / 2

/-- Constant `oneoversr = 1. / SAMPLE_RATE` from both source files. -/
def oneoversr (α : Type) [Field α] : α := 1 / SAMPLE_RATE α

/-- The `wave` struct passed to the callback in both source files:
frequency, amplitude, starting phase, the wavetable pointer, and the
current table location `n`. -/
structure Wave (α : Type) where
  frequency : α
  amplitude : α
  phase : α
  wavetable : List α
  n : α

variable {α : Type} [LinearOrderedField α] [FloorRing α]

/-- The C cast `(int)x` of a floating value: truncation toward zero. -/
def ctrunc (x : α) : ℤ :=
  if 0 ≤ x then ⌊x⌋ else ⌈x⌉

/-- Read of `table[i]` where `i` is the signed int produced by the cast:
`some` of the stored value when `0 ≤ i < length`, `none` (undefined
behaviour) when the access is outside the allocation. -/
def readTable (t : List α) (i : ℤ) : Option α :=
  if 0 ≤ i then t.get? i.toNat else none

/-- The phase wraparound loop `while (n > TABLE_LENGTH) n -= TABLE_LENGTH;`
of both callbacks, with the table length `L` as a parameter.  The guard
conjunct `0 < L` makes the recursion total (see module docstring). -/
def wrap {α : Type} [LinearOrderedField α] [FloorRing α] (L : ℕ) (n : α) : α :=
  if h : 0 < L ∧ (L : α) < n then wrap L (n - L) else n
termination_by (⌈n / (L : α)⌉).toNat
decreasing_by
  have hL : (0 : α) < (L : α) := by exact_mod_cast h.1
  have h2 : (1 : α) < n / (L : α) := (one_lt_div hL).mpr h.2
  have hceil : (2 : ℤ) ≤ ⌈n / (L : α)⌉ := by
    have h3 : ((1 : ℤ) : α) < n / (L : α) := by exact_mod_cast h2
    have := Int.lt_ceil.mpr h3
    omega
  have hsub : (n - (L : α)) / (L : α) = n / (L : α) - 1 := by
    field_simp
  have : ⌈(n - (L : α)) / (L : α)⌉ = ⌈n / (L : α)⌉ - 1 := by
    rw [hsub, Int.ceil_sub_one]
  omega

/-- One iteration of the truncating callback loop (`wavetable1.c`,
lines 74–78): read `y = amplitude * wavetable[(int)n]`, then advance
`n` by `frequency * L * oneoversr` and wrap it.  Returns the updated
state and the sample value (`none` when the read was out of bounds). -/
def step1 (L : ℕ) (w : Wave α) : Wave α × Option α :=
  let y := (readTable w.wavetable (ctrunc w.n)).map (fun s => w.amplitude * s)
  let n1 := w.n + w.frequency * (L : α) * oneoversr α
  ({ w with n := wrap L n1 }, y)

/-- One iteration of the interpolating callback loop (`wavetable2.c`,
lines 78–84): `f = n - (int)n`, `y = amplitude * ((1-f) * wavetable[(int)n]
+ f * wavetable[(int)n + 1])`, then advance and wrap `n`.  Both table
reads are performed unconditionally, as in the C code; the sample is
`none` whenever either access is outside the allocation. -/
def step2 (L : ℕ) (w : Wave α) : Wave α × Option α :=
  let i := ctrunc w.n
  let f := w.n - (i : α)
  let y := (readTable w.wavetable i).bind (fun a =>
    (readTable w.wavetable (i + 1)).map (fun b =>
      w.amplitude * ((1 - f) * a + f * b)))
  let n1 := w.n + w.frequency * (L : α) * oneoversr α
  ({ w with n := wrap L n1 }, y)

/-- The buffer-fill loop of `sineCallback` in `wavetable1.c`: for
`framesPerBuffer` frames, produce one sample with the truncating policy
and write it to both interleaved channel slots.  Returns the final
oscillator state and the interleaved output buffer in write order. -/
def sineCallback1 (L : ℕ) : Wave α → ℕ → Wave α × List (Option α)
  | w, 0 => (w, [])
  | w, frames + 1 =>
    let s := step1 L w
    let rest := sineCallback1 L s.1 frames
    (rest.1, s.2 :: s.2 :: rest.2)

/-- The buffer-fill loop of `sineCallback` in `wavetable2.c`: as
`sineCallback1` but with the interpolating policy. -/
def sineCallback2 (L : ℕ) : Wave α → ℕ → Wave α × List (Option α)
  | w, 0 => (w, [])
  | w, frames + 1 =>
    let s := step2 L w
    let rest := sineCallback2 L s.1 frames
    (rest.1, s.2 :: s.2 :: rest.2)

/-- Constant `TWOPI (6.283185307179586)` of `wavetable1.c`, denoting
`2π` in the real-valued idealisation. -/
noncomputable def TWOPI : ℝ := 2 * Real.pi

/-- Table builder `filltable` of `wavetable1.c`: `length` slots, slot `i`
holding `sin(i * twopioverlength)` where `twopioverlength = TWOPI / length`
is computed once before the loop. -/
noncomputable def filltable1 (length : ℕ) : List ℝ :=
  let twopioverlength : ℝ := TWOPI / (length : ℝ)
  List.ofFn (fun i : Fin length => Real.sin ((i : ℕ) * twopioverlength))

/-- Table builder `filltable` of `wavetable2.c`: `length + 1` slots, slot
`i < length` holding `sin(i * twopioverlength)` with `twopioverlength =
8 * atan 1 / length` computed once, and the final guard slot `length`
written as the literal `0.`. -/
noncomputable def filltable2 (length : ℕ) : List ℝ :=
  let twopioverlength : ℝ := 8 * Real.arctan 1 / (length : ℝ)
  List.ofFn (fun i : Fin (length + 1) =>
    if (i : ℕ) = length then 0 else Real.sin ((i : ℕ) * twopioverlength))

/-! ### Helper lemmas about the wraparound loop -/

/-- The wraparound loop leaves a value that is already `≤ L` unchanged. -/
theorem wrap_le {L : ℕ} {n : α} (h : n ≤ (L : α)) : wrap L n = n := by
  rw [wrap]
  simp [not_lt.mpr h]

/-- One unfolding of the wraparound loop when the guard holds. -/
theorem wrap_gt {L : ℕ} {n : α} (hL : 0 < L) (h : (L : α) < n) :
    wrap L n = wrap L (n - L) := by
  rw [wrap]
  simp [hL, h]

/-- After the wraparound loop, a nonnegative value lands in `[0, L]`.
The upper bound is inclusive because the loop guard is the strict
comparison `n > TABLE_LENGTH`. -/
theorem wrap_bounds {L : ℕ} (hL : 0 < L) (n : α) (hn : 0 ≤ n) :
    0 ≤ wrap L n ∧ wrap L n ≤ (L : α) := by
  induction n using wrap.induct (α := α) L with
  | case1 x hx ih =>
    rw [wrap]
    rw [dif_pos hx]
    have hLpos : (0 : α) < (L : α) := by exact_mod_cast hL
    exact ih (by linarith [hx.2])
  | case2 x hx =>
    have hxL : x ≤ (L : α) := not_lt.mp (fun hgt => hx ⟨hL, hgt⟩)
    rw [wrap_le hxL]
    exact ⟨hn, hxL⟩

/-- The per-frame phase increment `frequency * L * oneoversr` is
nonnegative whenever the frequency is. -/
theorem increment_nonneg {w : Wave α} (hf : 0 ≤ w.frequency) (L : ℕ) :
    0 ≤ w.frequency * (L : α) * oneoversr α := by
  have h1 : (0 : α) ≤ (L : α) := by positivity
  have h2 : (0 : α) ≤ oneoversr α := by
    rw [oneoversr, SAMPLE_RATE]
    positivity
  exact mul_nonneg (mul_nonneg hf h1) h2

/-- Fields other than the phase accumulator are never written by the
truncating per-frame step. -/
theorem step1_fields (L : ℕ) (w : Wave α) :
    (step1 L w).1.frequency = w.frequency ∧ (step1 L w).1.amplitude = w.amplitude ∧
      (step1 L w).1.wavetable = w.wavetable := by
  simp [step1]

/-- Fields other than the phase accumulator are never written by the
interpolating per-frame step. -/
theorem step2_fields (L : ℕ) (w : Wave α) :
    (step2 L w).1.frequency = w.frequency ∧ (step2 L w).1.amplitude = w.amplitude ∧
      (step2 L w).1.wavetable = w.wavetable := by
  simp [step2]

/-- The truncating step keeps the phase accumulator in `[0, L]`. -/
theorem step1_n_mem (L : ℕ) (hL : 0 < L) (w : Wave α)
    (hf : 0 ≤ w.frequency) (hn : 0 ≤ w.n) :
    0 ≤ (step1 L w).1.n ∧ (step1 L w).1.n ≤ (L : α) := by
  have := increment_nonneg (w := w) hf L
  simpa [step1] using wrap_bounds hL (w.n + w.frequency * (L : α) * oneoversr α)
    (by linarith)

/-- The interpolating step keeps the phase accumulator in `[0, L]`. -/
theorem step2_n_mem (L : ℕ) (hL : 0 < L) (w : Wave α)
    (hf : 0 ≤ w.frequency) (hn : 0 ≤ w.n) :
    0 ≤ (step2 L w).1.n ∧ (step2 L w).1.n ≤ (L : α) := by
  have := increment_nonneg (w := w) hf L
  simpa [step2] using wrap_bounds hL (w.n + w.frequency * (L : α) * oneoversr α)
    (by linarith)

/-- The truncating callback keeps the phase accumulator in `[0, L]`. -/
theorem cb1_n_mem (L : ℕ) (hL : 0 < L) (w : Wave α) (frames : ℕ)
    (hf : 0 ≤ w.frequency) (hn : 0 ≤ w.n) (hnL : w.n ≤ (L : α)) :
    0 ≤ (sineCallback1 L w frames).1.n ∧ (sineCallback1 L w frames).1.n ≤ (L : α) := by
  induction frames generalizing w with
  | zero => exact ⟨hn, hnL⟩
  | succ m ih =>
    have hmem := step1_n_mem L hL w hf hn
    have hfields := step1_fields L w
    simpa [sineCallback1] using
      ih (step1 L w).1 (hfields.1 ▸ hf) hmem.1 hmem.2

/-- The interpolating callback keeps the phase accumulator in `[0, L]`. -/
theorem cb2_n_mem (L : ℕ) (hL : 0 < L) (w : Wave α) (frames : ℕ)
    (hf : 0 ≤ w.frequency) (hn : 0 ≤ w.n) (hnL : w.n ≤ (L : α)) :
    0 ≤ (sineCallback2 L w frames).1.n ∧ (sineCallback2 L w frames).1.n ≤ (L : α) := by
  induction frames generalizing w with
  | zero => exact ⟨hn, hnL⟩
  | succ m ih =>
    have hmem := step2_n_mem L hL w hf hn
    have hfields := step2_fields L w
    simpa [sineCallback2] using
      ih (step2 L w).1 (hfields.1 ▸ hf) hmem.1 hmem.2

/-- Splitting lemma for the truncating callback: running `n1 + n2`
frames equals running `n1` frames and then `n2` frames from the
resulting state, concatenating the outputs. -/
theorem cb1_append (L : ℕ) (n1 : ℕ) :
    ∀ (w : Wave α) (n2 : ℕ),
      sineCallback1 L w (n1 + n2) =
        ((sineCallback1 L (sineCallback1 L w n1).1 n2).1,
          (sineCallback1 L w n1).2 ++ (sineCallback1 L (sineCallback1 L w n1).1 n2).2) := by
  induction n1 with
  | zero =>
    intro w n2
    simp [sineCallback1]
  | succ m ih =>
    intro w n2
    have hadd : m + 1 + n2 = (m + n2) + 1 := by omega
    rw [hadd]
    simp only [sineCallback1]
    rw [ih]
    simp

/-- Splitting lemma for the interpolating callback. -/
theorem cb2_append (L : ℕ) (n1 : ℕ) :
    ∀ (w : Wave α) (n2 : ℕ),
      sineCallback2 L w (n1 + n2) =
        ((sineCallback2 L (sineCallback2 L w n1).1 n2).1,
          (sineCallback2 L w n1).2 ++ (sineCallback2 L (sineCallback2 L w n1).1 n2).2) := by
  induction n1 with
  | zero =>
    intro w n2
    simp [sineCallback2]
  | succ m ih =>
    intro w n2
    have hadd : m + 1 + n2 = (m + n2) + 1 := by omega
    rw [hadd]
    simp only [sineCallback2]
    rw [ih]
    simp

/-- C1 (amended): for any nonnegative value `m` of the phase accumulator
before wrapping — including values produced by increments larger than the
table length — the wrap loop lands in the closed interval `[0, tableLength]`,
and for both callbacks the accumulator stays in `[0, tableLength]` from the
start to the end of every invocation.  The bound is inclusive, not the
strict `n < tableLength` of the claim: the loop guard `n > TABLE_LENGTH`
is strict, so the accumulator can come to rest exactly at `tableLength`. -/
theorem phase_wrap_invariant (L : ℕ) (w : Wave α) (frames : ℕ) (m : α)
    (hL : 0 < L) (hm : 0 ≤ m) (hf : 0 ≤ w.frequency)
    (hn : 0 ≤ w.n) (hnL : w.n ≤ (L : α)) :
    (0 ≤ wrap L m ∧ wrap L m ≤ (L : α)) ∧
    (0 ≤ (sineCallback1 L w frames).1.n ∧ (sineCallback1 L w frames).1.n ≤ (L : α)) ∧
    (0 ≤ (sineCallback2 L w frames).1.n ∧ (sineCallback2 L w frames).1.n ≤ (L : α)) :=
  ⟨wrap_bounds hL m hm, cb1_n_mem L hL w frames hf hn hnL,
    cb2_n_mem L hL w frames hf hn hnL⟩

/-- Witness for `phase_wrap_invariant` at table length 4, a pre-wrap
value 9 exceeding twice the length, and a three-frame run over `ℚ`. -/
theorem phase_wrap_invariant_inst :
    0 < 4 ∧ (0 : ℚ) ≤ 9 ∧ (0 : ℚ) ≤ 44100 ∧ (0 : ℚ) ≤ 0 ∧ ((0 : ℚ) ≤ ((4 : ℕ) : ℚ)) ∧
    ((0 ≤ wrap (α := ℚ) 4 9 ∧ wrap (α := ℚ) 4 9 ≤ ((4 : ℕ) : ℚ)) ∧
      (0 ≤ (sineCallback1 (α := ℚ) 4 ⟨44100, 1/2, 0, [0, 1, 0, -1], 0⟩ 3).1.n ∧
        (sineCallback1 (α := ℚ) 4 ⟨44100, 1/2, 0, [0, 1, 0, -1], 0⟩ 3).1.n ≤ ((4 : ℕ) : ℚ)) ∧
      (0 ≤ (sineCallback2 (α := ℚ) 4 ⟨44100, 1/2, 0, [0, 1, 0, -1], 0⟩ 3).1.n ∧
        (sineCallback2 (α := ℚ) 4 ⟨44100, 1/2, 0, [0, 1, 0, -1], 0⟩ 3).1.n ≤ ((4 : ℕ) : ℚ))) :=
  ⟨by decide, by decide, by decide, by decide, by simp,
    phase_wrap_invariant 4 ⟨44100, 1/2, 0, [0, 1, 0, -1], 0⟩ 3 9
      (by decide) (by decide) (by decide) (by decide) (by simp)⟩

/-- C1 counterexample: with table length 4 and frequency 44100 Hz the
per-frame increment is exactly 4 = tableLength, and a single frame from
phase 0 leaves the accumulator exactly at tableLength, refuting the
claimed strict bound `n < tableLength` after wrapping. -/
theorem phase_wrap_invariant_cex :
    (sineCallback1 (α := ℚ) 4 ⟨44100, 1/2, 0, [0, 1, 0, -1], 0⟩ 1).1.n = 4 ∧
    ¬ ((sineCallback1 (α := ℚ) 4 ⟨44100, 1/2, 0, [0, 1, 0, -1], 0⟩ 1).1.n < 4) := by
  have h : (sineCallback1 (α := ℚ) 4 ⟨44100, 1/2, 0, [0, 1, 0, -1], 0⟩ 1).1.n = 4 := by
    simp [sineCallback1, step1, oneoversr, SAMPLE_RATE]
    norm_num [wrap_le]
  exact ⟨h, by rw [h]; exact lt_irrefl 4⟩

/-- C5: producing `n1` frames and then `n2` frames, threading the state,
yields the same concatenated outputs and the same final state as one
`n1 + n2`-frame call, for both the truncating and the interpolating
policy. -/
theorem produceSamples_split (L : ℕ) (w : Wave α) (n1 n2 : ℕ) :
    ((sineCallback1 L w (n1 + n2)).2 =
        (sineCallback1 L w n1).2 ++ (sineCallback1 L (sineCallback1 L w n1).1 n2).2 ∧
      (sineCallback1 L w (n1 + n2)).1 = (sineCallback1 L (sineCallback1 L w n1).1 n2).1) ∧
    ((sineCallback2 L w (n1 + n2)).2 =
        (sineCallback2 L w n1).2 ++ (sineCallback2 L (sineCallback2 L w n1).1 n2).2 ∧
      (sineCallback2 L w (n1 + n2)).1 = (sineCallback2 L (sineCallback2 L w n1).1 n2).1) := by
  refine ⟨⟨?_, ?_⟩, ⟨?_, ?_⟩⟩
  · rw [cb1_append L n1 w n2]
  · rw [cb1_append L n1 w n2]
  · rw [cb2_append L n1 w n2]
  · rw [cb2_append L n1 w n2]

/-- Shape of the truncating callback's output buffer: two slots per
frame, and the two slots of each frame hold the same element. -/
theorem cb1_shape (L : ℕ) (frames : ℕ) :
    ∀ w : Wave α,
      (sineCallback1 L w frames).2.length = 2 * frames ∧
      ∀ k, k < frames →
        (sineCallback1 L w frames).2.get? (2 * k) =
          (sineCallback1 L w frames).2.get? (2 * k + 1) := by
  induction frames with
  | zero => simp [sineCallback1]
  | succ m ih =>
    intro w
    refine ⟨?_, ?_⟩
    · have := (ih (step1 L w).1).1
      simp only [sineCallback1]
      simp [this]
      ring
    · intro k hk
      cases k with
      | zero => simp [sineCallback1]
      | succ j =>
        have h1 : 2 * (j + 1) = 2 * j + 1 + 1 := by ring
        rw [h1]
        simp only [sineCallback1, List.get?_cons_succ]
        exact (ih (step1 L w).1).2 j (by omega)

/-- Shape of the interpolating callback's output buffer. -/
theorem cb2_shape (L : ℕ) (frames : ℕ) :
    ∀ w : Wave α,
      (sineCallback2 L w frames).2.length = 2 * frames ∧
      ∀ k, k < frames →
        (sineCallback2 L w frames).2.get? (2 * k) =
          (sineCallback2 L w frames).2.get? (2 * k + 1) := by
  induction frames with
  | zero => simp [sineCallback2]
  | succ m ih =>
    intro w
    refine ⟨?_, ?_⟩
    · have := (ih (step2 L w).1).1
      simp only [sineCallback2]
      simp [this]
      ring
    · intro k hk
      cases k with
      | zero => simp [sineCallback2]
      | succ j =>
        have h1 : 2 * (j + 1) = 2 * j + 1 + 1 := by ring
        rw [h1]
        simp only [sineCallback2, List.get?_cons_succ]
        exact (ih (step2 L w).1).2 j (by omega)

/-- C9: each frame duplicates its synthesized value into both interleaved
channel slots, and a call writes exactly `frameCount * channelCount`
(`= 2 * frames`) buffer slots, for both variants. -/
theorem channels_identical_and_buffer_filled (L : ℕ) (w : Wave α)
    (frames k : ℕ) (hk : k < frames) :
    ((sineCallback1 L w frames).2.length = 2 * frames ∧
      (sineCallback1 L w frames).2.get? (2 * k) =
        (sineCallback1 L w frames).2.get? (2 * k + 1)) ∧
    ((sineCallback2 L w frames).2.length = 2 * frames ∧
      (sineCallback2 L w frames).2.get? (2 * k) =
        (sineCallback2 L w frames).2.get? (2 * k + 1)) :=
  ⟨⟨(cb1_shape L frames w).1, (cb1_shape L frames w).2 k hk⟩,
    ⟨(cb2_shape L frames w).1, (cb2_shape L frames w).2 k hk⟩⟩

/-- Witness for `channels_identical_and_buffer_filled`: a three-frame run
over `ℚ`, checking frame 1. -/
theorem channels_identical_and_buffer_filled_inst :
    1 < 3 ∧
    (((sineCallback1 (α := ℚ) 4 ⟨11025, 1/2, 0, [0, 1, 0, -1], 0⟩ 3).2.length = 2 * 3 ∧
      (sineCallback1 (α := ℚ) 4 ⟨11025, 1/2, 0, [0, 1, 0, -1], 0⟩ 3).2.get? (2 * 1) =
        (sineCallback1 (α := ℚ) 4 ⟨11025, 1/2, 0, [0, 1, 0, -1], 0⟩ 3).2.get? (2 * 1 + 1)) ∧
    ((sineCallback2 (α := ℚ) 4 ⟨11025, 1/2, 0, [0, 1, 0, -1], 0⟩ 3).2.length = 2 * 3 ∧
      (sineCallback2 (α := ℚ) 4 ⟨11025, 1/2, 0, [0, 1, 0, -1], 0⟩ 3).2.get? (2 * 1) =
        (sineCallback2 (α := ℚ) 4 ⟨11025, 1/2, 0, [0, 1, 0, -1], 0⟩ 3).2.get? (2 * 1 + 1))) :=
  ⟨by decide,
    channels_identical_and_buffer_filled 4 ⟨11025, 1/2, 0, [0, 1, 0, -1], 0⟩ 3 1 (by decide)⟩

/-- C2 (code bug): the concrete scenario of the specification — table
length 4, table `[0, 1, 0, -1]`, amplitude 1/2, phase increment exactly
1.0 per sample (frequency 11025 Hz at sample rate 44100), starting phase
0 — run for five frames with the truncating policy.  The first four
frames produce the expected cycle `0, amp, 0, -amp`, but the wrap guard
`n > TABLE_LENGTH` leaves the accumulator at exactly 4 after the fourth
increment, so the fifth frame reads `wavetable[4]`, one slot past the
4-entry table (`none`), instead of restarting the cycle at `table[0] = 0`
as the claim states. -/
theorem truncating_scenario_fifth_sample_oob :
    (sineCallback1 (α := ℚ) 4 ⟨11025, 1/2, 0, [0, 1, 0, -1], 0⟩ 5).2 =
      [some 0, some 0, some (1/2), some (1/2), some 0, some 0,
        some (-(1/2)), some (-(1/2)), none, none] := by
  simp [sineCallback1, step1, readTable, ctrunc, oneoversr, SAMPLE_RATE]
  norm_num [wrap_le, wrap_gt]
  have h2 : Int.toNat 2 = 2 := rfl
  have h3 : Int.toNat 3 = 3 := rfl
  simp only [h2, h3]
  norm_num

/-! ### Table contents -/

/-- C3: for both variants, after `filltable` with positive length, slot
`i < length` holds `sin(2π·i/length)` (in the idealised real-valued
model; the per-index increment is the constant computed once before the
loop in each builder). -/
theorem filltable_matches_sin (length : ℕ) (hlen : 0 < length)
    (i : ℕ) (hi : i < length) :
    (filltable1 length).get? i = some (Real.sin (2 * Real.pi * i / length)) ∧
    (filltable2 length).get? i = some (Real.sin (2 * Real.pi * i / length)) := by
  constructor
  · simp only [filltable1, List.get?_ofFn, List.ofFnNthVal, hi, dif_pos]
    congr 2
    rw [TWOPI]
    ring
  · have hi' : i < length + 1 := by omega
    simp only [filltable2, List.get?_ofFn, List.ofFnNthVal, hi', dif_pos]
    rw [if_neg (by omega)]
    congr 2
    rw [Real.arctan_one]
    ring

/-- Witness for `filltable_matches_sin` at length 4, index 1. -/
theorem filltable_matches_sin_inst :
    0 < 4 ∧ 1 < 4 ∧
    ((filltable1 4).get? 1 = some (Real.sin (2 * Real.pi * ((1 : ℕ) : ℝ) / ((4 : ℕ) : ℝ))) ∧
      (filltable2 4).get? 1 = some (Real.sin (2 * Real.pi * ((1 : ℕ) : ℝ) / ((4 : ℕ) : ℝ)))) :=
  ⟨by decide, by decide, filltable_matches_sin 4 (by decide) 1 (by decide)⟩

/-- C4: in the interpolating variant the guard slot at index `length`
equals the first slot; both hold 0 (the guard is written as the literal
`0.`, and `table[0] = sin 0 = 0`). -/
theorem guard_slot_eq_first (length : ℕ) (hlen : 0 < length) :
    (filltable2 length).get? length = (filltable2 length).get? 0 ∧
    (filltable2 length).get? length = some 0 := by
  have hg : (filltable2 length).get? length = some 0 := by
    simp only [filltable2, List.get?_ofFn, List.ofFnNthVal,
      Nat.lt_succ_self, dif_pos]
    simp
  have h0 : (filltable2 length).get? 0 = some 0 := by
    have h01 : 0 < length + 1 := Nat.succ_pos length
    simp only [filltable2, List.get?_ofFn, List.ofFnNthVal, h01, dif_pos]
    rw [if_neg (by omega)]
    simp
  exact ⟨hg.trans h0.symm, hg⟩

/-- Witness for `guard_slot_eq_first` at length 4. -/
theorem guard_slot_eq_first_inst :
    0 < 4 ∧
    ((filltable2 4).get? 4 = (filltable2 4).get? 0 ∧
      (filltable2 4).get? 4 = some 0) :=
  ⟨by decide, guard_slot_eq_first 4 (by decide)⟩

/-- C8 counterexample: neither builder fails fast on a zero length — no
assertion or error path exists in `filltable` — and both return a table:
the truncating builder the empty table, the interpolating one the single
guard slot.  (A negative length is unrepresentable: the parameter has
type `unsigned long`.) -/
theorem filltable_zero_length_cex :
    filltable1 0 = [] ∧ filltable2 0 = [(0 : ℝ)] := by
  constructor
  · simp [filltable1]
  · simp [filltable2, List.ofFn_succ]

/-- C8 (amended): with length 0 the builders silently produce a
degenerate table rather than failing: the fill loop runs zero times, so
the truncating variant returns a 0-slot table and the interpolating
variant a 1-slot table holding only the guard value 0. -/
theorem filltable_zero_length_degenerate :
    (filltable1 0).length = 0 ∧ (filltable2 0).length = 1 ∧
      (filltable2 0).get? 0 = some (0 : ℝ) := by
  refine ⟨by simp [filltable1], by simp [filltable2], ?_⟩
  simp [filltable2, List.get?_ofFn]

/-! ### Interpolation -/

/-- C6: whenever the interpolating step produces a sample `y` from two
in-bounds table reads `a = table[(int)n]` and `b = table[(int)n + 1]`
with `0 ≤ n` and positive amplitude, the normalised sample `y/amplitude`
lies between the two table values it blends. -/
theorem interpolation_between_table_values (L : ℕ) (w : Wave α) (a b y : α)
    (hn : 0 ≤ w.n) (hamp : 0 < w.amplitude)
    (ha : readTable w.wavetable (ctrunc w.n) = some a)
    (hb : readTable w.wavetable (ctrunc w.n + 1) = some b)
    (hy : (step2 L w).2 = some y) :
    min a b ≤ y / w.amplitude ∧ y / w.amplitude ≤ max a b := by
  have hy' : w.amplitude * ((1 - (w.n - (ctrunc w.n : α))) * a +
      (w.n - (ctrunc w.n : α)) * b) = y := by
    simpa [step2, ha, hb] using hy
  have hctr : ctrunc w.n = ⌊w.n⌋ := by simp [ctrunc, hn]
  have hf0 : 0 ≤ w.n - (ctrunc w.n : α) := by
    rw [hctr]
    exact sub_nonneg.mpr (Int.floor_le w.n)
  have hf1 : w.n - (ctrunc w.n : α) ≤ 1 := by
    rw [hctr]
    have := Int.lt_floor_add_one w.n
    linarith
  have hdiv : y / w.amplitude =
      (1 - (w.n - (ctrunc w.n : α))) * a + (w.n - (ctrunc w.n : α)) * b := by
    rw [← hy']
    field_simp
  rw [hdiv]
  set f := w.n - (ctrunc w.n : α) with hfdef
  constructor
  · have h1 : (1 - f) * min a b ≤ (1 - f) * a :=
      mul_le_mul_of_nonneg_left (min_le_left a b) (by linarith)
    have h2 : f * min a b ≤ f * b :=
      mul_le_mul_of_nonneg_left (min_le_right a b) hf0
    calc min a b = (1 - f) * min a b + f * min a b := by ring
    _ ≤ (1 - f) * a + f * b := add_le_add h1 h2
  · have h1 : (1 - f) * a ≤ (1 - f) * max a b :=
      mul_le_mul_of_nonneg_left (le_max_left a b) (by linarith)
    have h2 : f * b ≤ f * max a b :=
      mul_le_mul_of_nonneg_left (le_max_right a b) hf0
    calc (1 - f) * a + f * b ≤ (1 - f) * max a b + f * max a b := add_le_add h1 h2
    _ = max a b := by ring

/-- Witness for `interpolation_between_table_values`: phase 2 on the
table `[0, 1, 0, -1]` over `ℚ`, blending `a = 0` and `b = -1`. -/
theorem interpolation_between_table_values_inst :
    (0 : ℚ) ≤ 2 ∧ (0 : ℚ) < 2 ∧
    readTable [(0 : ℚ), 1, 0, -1] (ctrunc (2 : ℚ)) = some 0 ∧
    readTable [(0 : ℚ), 1, 0, -1] (ctrunc (2 : ℚ) + 1) = some (-1) ∧
    (step2 (α := ℚ) 4 ⟨11025, 2, 0, [0, 1, 0, -1], 2⟩).2 = some 0 ∧
    (min (0 : ℚ) (-1) ≤ 0 / 2 ∧ (0 : ℚ) / 2 ≤ max 0 (-1)) :=
  ⟨by decide, by decide,
    by simp [readTable, ctrunc],
    by simp [readTable, ctrunc],
    by simp [step2, readTable, ctrunc],
    interpolation_between_table_values 4 ⟨11025, 2, 0, [0, 1, 0, -1], 2⟩ 0 (-1) 0
      (by decide) (by decide)
      (by simp [readTable, ctrunc])
      (by simp [readTable, ctrunc])
      (by simp [step2, readTable, ctrunc])⟩

/-- C10 (amended): in the interpolating variant, under the precondition
`0 ≤ n < tableLength` both read indices `(int)n` and `(int)n + 1` lie in
`[0, tableLength]`, so on the `tableLength + 1`-slot table both reads are
in bounds and the step produces a defined sample.  The claim's inclusive
precondition `n ≤ tableLength` is too weak: at the reachable phase
`n = tableLength` the second read indexes slot `tableLength + 1`, one
past the allocation (see the counterexample). -/
theorem interp_reads_in_bounds (L : ℕ) (w : Wave α)
    (hn0 : 0 ≤ w.n) (hnL : w.n < (L : α)) (hlen : w.wavetable.length = L + 1) :
    0 ≤ ctrunc w.n ∧ ctrunc w.n + 1 ≤ (L : ℤ) ∧
      ∃ y, (step2 L w).2 = some y := by
  have hctr : ctrunc w.n = ⌊w.n⌋ := by simp [ctrunc, hn0]
  have h0 : 0 ≤ ⌊w.n⌋ := Int.floor_nonneg.mpr hn0
  have hlt : ⌊w.n⌋ < (L : ℤ) := Int.floor_lt.mpr (by exact_mod_cast hnL)
  refine ⟨hctr ▸ h0, by rw [hctr]; omega, ?_⟩
  have hi1 : (⌊w.n⌋).toNat < w.wavetable.length := by rw [hlen]; omega
  have hi2 : (⌊w.n⌋ + 1).toNat < w.wavetable.length := by rw [hlen]; omega
  obtain ⟨a, ha⟩ : ∃ a, w.wavetable.get? (⌊w.n⌋).toNat = some a :=
    ⟨_, List.get?_eq_get hi1⟩
  obtain ⟨b, hb⟩ : ∃ b, w.wavetable.get? (⌊w.n⌋ + 1).toNat = some b :=
    ⟨_, List.get?_eq_get hi2⟩
  have h01 : (0 : ℤ) ≤ ⌊w.n⌋ + 1 := by omega
  simp only [List.get?_eq_getElem?] at ha hb
  have hsome : ((step2 L w).2).isSome = true := by
    simp [step2, readTable, hctr, h0, h01, ha, hb]
  exact Option.isSome_iff_exists.mp hsome

/-- Witness for `interp_reads_in_bounds`: phase 2 on the 5-slot table
`[0, 1, 0, -1, 0]` with tableLength 4 over `ℚ`. -/
theorem interp_reads_in_bounds_inst :
    (0 : ℚ) ≤ 2 ∧ (2 : ℚ) < ((4 : ℕ) : ℚ) ∧
    [(0 : ℚ), 1, 0, -1, 0].length = 4 + 1 ∧
    (0 ≤ ctrunc (2 : ℚ) ∧ ctrunc (2 : ℚ) + 1 ≤ ((4 : ℕ) : ℤ) ∧
      ∃ y, (step2 (α := ℚ) 4 ⟨11025, 2, 0, [0, 1, 0, -1, 0], 2⟩).2 = some y) :=
  ⟨by decide, by decide, by decide,
    interp_reads_in_bounds 4 ⟨11025, 2, 0, [0, 1, 0, -1, 0], 2⟩
      (by decide) (by decide) (by decide)⟩

/-- C10 counterexample: the phase `n = 4 = tableLength` satisfies the
claim's precondition `0 ≤ n ≤ tableLength`, yet `(int)n + 1 = 5` does not
lie in `[0, tableLength]`, the read of slot 5 on the `tableLength + 1 = 5`
slot table is past the allocation, and the interpolating step's sample is
undefined. -/
theorem interp_reads_cex :
    (0 : ℚ) ≤ 4 ∧ (4 : ℚ) ≤ ((4 : ℕ) : ℚ) ∧
    [(0 : ℚ), 1, 0, -1, 0].length = 4 + 1 ∧
    ¬ (ctrunc (4 : ℚ) + 1 ≤ ((4 : ℕ) : ℤ)) ∧
    readTable [(0 : ℚ), 1, 0, -1, 0] (ctrunc (4 : ℚ) + 1) = none ∧
    (step2 (α := ℚ) 4 ⟨11025, 2, 0, [0, 1, 0, -1, 0], 4⟩).2 = none := by
  have hctr : ctrunc (4 : ℚ) = 4 := by simp [ctrunc]
  refine ⟨by decide, by decide, by decide, by rw [hctr]; decide, ?_, ?_⟩
  · rw [hctr]
    simp [readTable]
  · simp [step2, readTable, hctr]

/-! ### Amplitude bound -/

/-- A successful `readTable` is a successful list read. -/
theorem readTable_some {t : List α} {i : ℤ} {v : α}
    (h : readTable t i = some v) : t.get? i.toNat = some v := by
  unfold readTable at h
  split at h
  · exact h
  · cases h

/-- Every entry of the truncating variant's table is a sine value, so its
magnitude is at most 1. -/
theorem filltable1_entry_bound (L i : ℕ) (v : ℝ)
    (h : (filltable1 L).get? i = some v) : |v| ≤ 1 := by
  simp only [filltable1, List.get?_ofFn, List.ofFnNthVal] at h
  split at h
  · cases h
    exact Real.abs_sin_le_one _
  · cases h

/-- Every entry of the interpolating variant's table is a sine value or
the guard 0, so its magnitude is at most 1. -/
theorem filltable2_entry_bound (L i : ℕ) (v : ℝ)
    (h : (filltable2 L).get? i = some v) : |v| ≤ 1 := by
  simp only [filltable2, List.get?_ofFn, List.ofFnNthVal] at h
  split at h
  · cases h
    split
    · simp
    · exact Real.abs_sin_le_one _
  · cases h

/-- A defined truncating sample is bounded by the amplitude whenever all
table entries have magnitude at most 1. -/
theorem step1_out_bound (L : ℕ) (w : Wave α) (hamp : 0 ≤ w.amplitude)
    (htab : ∀ i v, w.wavetable.get? i = some v → |v| ≤ 1) :
    ∀ v, (step1 L w).2 = some v → |v| ≤ w.amplitude := by
  intro v hv
  simp only [step1] at hv
  cases hread : readTable w.wavetable (ctrunc w.n) with
  | none => rw [hread] at hv; cases hv
  | some s =>
    rw [hread] at hv
    simp only [Option.map_some', Option.some.injEq] at hv
    have hs : |s| ≤ 1 := htab _ _ (readTable_some hread)
    calc |v| = |w.amplitude| * |s| := by rw [← hv, abs_mul]
    _ = w.amplitude * |s| := by rw [abs_of_nonneg hamp]
    _ ≤ w.amplitude * 1 := mul_le_mul_of_nonneg_left hs hamp
    _ = w.amplitude := mul_one _

/-- A defined interpolating sample is bounded by the amplitude whenever
all table entries have magnitude at most 1 and the phase is nonnegative. -/
theorem step2_out_bound (L : ℕ) (w : Wave α) (hamp : 0 ≤ w.amplitude)
    (hn : 0 ≤ w.n)
    (htab : ∀ i v, w.wavetable.get? i = some v → |v| ≤ 1) :
    ∀ v, (step2 L w).2 = some v → |v| ≤ w.amplitude := by
  intro v hv
  simp only [step2] at hv
  cases hreada : readTable w.wavetable (ctrunc w.n) with
  | none => rw [hreada] at hv; cases hv
  | some a =>
    rw [hreada] at hv
    cases hreadb : readTable w.wavetable (ctrunc w.n + 1) with
    | none => rw [hreadb] at hv; cases hv
    | some b =>
      rw [hreadb] at hv
      simp only [Option.some_bind, Option.map_some', Option.some.injEq] at hv
      have ha : |a| ≤ 1 := htab _ _ (readTable_some hreada)
      have hb : |b| ≤ 1 := htab _ _ (readTable_some hreadb)
      have hctr : ctrunc w.n = ⌊w.n⌋ := by simp [ctrunc, hn]
      have hf0 : 0 ≤ w.n - (ctrunc w.n : α) := by
        rw [hctr]
        exact sub_nonneg.mpr (Int.floor_le w.n)
      have hf1 : w.n - (ctrunc w.n : α) ≤ 1 := by
        rw [hctr]
        have := Int.lt_floor_add_one w.n
        linarith
      set f := w.n - (ctrunc w.n : α) with hfdef
      have hblend : |(1 - f) * a + f * b| ≤ 1 := by
        calc |(1 - f) * a + f * b| ≤ |(1 - f) * a| + |f * b| := abs_add _ _
        _ = (1 - f) * |a| + f * |b| := by
            rw [abs_mul, abs_mul, abs_of_nonneg (by linarith : (0:α) ≤ 1 - f),
              abs_of_nonneg hf0]
        _ ≤ (1 - f) * 1 + f * 1 := add_le_add
            (mul_le_mul_of_nonneg_left ha (by linarith))
            (mul_le_mul_of_nonneg_left hb hf0)
        _ = 1 := by ring
      calc |v| = |w.amplitude| * |(1 - f) * a + f * b| := by rw [← hv, abs_mul]
      _ = w.amplitude * |(1 - f) * a + f * b| := by rw [abs_of_nonneg hamp]
      _ ≤ w.amplitude * 1 := mul_le_mul_of_nonneg_left hblend hamp
      _ = w.amplitude := mul_one _

/-- Every defined output of the truncating callback is bounded by the
amplitude, given a table of entries of magnitude at most 1. -/
theorem cb1_out_bound (L : ℕ) (hL : 0 < L) (frames : ℕ) :
    ∀ w : Wave α, 0 ≤ w.amplitude → 0 ≤ w.frequency → 0 ≤ w.n →
      (∀ i v, w.wavetable.get? i = some v → |v| ≤ 1) →
      ∀ v, some v ∈ (sineCallback1 L w frames).2 → |v| ≤ w.amplitude := by
  induction frames with
  | zero =>
    intro w _ _ _ _ v hv
    simp [sineCallback1] at hv
  | succ m ih =>
    intro w hamp hf hn htab v hv
    simp only [sineCallback1, List.mem_cons] at hv
    have hfields := step1_fields L w
    rcases hv with h | h | h
    · exact step1_out_bound L w hamp htab v h.symm
    · exact step1_out_bound L w hamp htab v h.symm
    · have hmem := step1_n_mem L hL w hf hn
      have hrec := ih (step1 L w).1 (hfields.2.1 ▸ hamp) (hfields.1 ▸ hf) hmem.1
        (fun i u hu => htab i u (hfields.2.2 ▸ hu)) v h
      rwa [hfields.2.1] at hrec

/-- Every defined output of the interpolating callback is bounded by the
amplitude, given a table of entries of magnitude at most 1. -/
theorem cb2_out_bound (L : ℕ) (hL : 0 < L) (frames : ℕ) :
    ∀ w : Wave α, 0 ≤ w.amplitude → 0 ≤ w.frequency → 0 ≤ w.n →
      (∀ i v, w.wavetable.get? i = some v → |v| ≤ 1) →
      ∀ v, some v ∈ (sineCallback2 L w frames).2 → |v| ≤ w.amplitude := by
  induction frames with
  | zero =>
    intro w _ _ _ _ v hv
    simp [sineCallback2] at hv
  | succ m ih =>
    intro w hamp hf hn htab v hv
    simp only [sineCallback2, List.mem_cons] at hv
    have hfields := step2_fields L w
    rcases hv with h | h | h
    · exact step2_out_bound L w hamp hn htab v h.symm
    · exact step2_out_bound L w hamp hn htab v h.symm
    · have hmem := step2_n_mem L hL w hf hn
      have hrec := ih (step2 L w).1 (hfields.2.1 ▸ hamp) (hfields.1 ▸ hf) hmem.1
        (fun i u hu => htab i u (hfields.2.2 ▸ hu)) v h
      rwa [hfields.2.1] at hrec

/-- C7 (amended): with the tables built by `filltable`, nonnegative
amplitude, frequency and starting phase, every defined output sample of
either policy has magnitude at most the amplitude.  The claim's "every
output" cannot include samples read at the reachable phase
`n = tableLength`, where the truncating variant's table access is out of
bounds and the written value is unspecified (see the counterexample). -/
theorem output_le_amplitude_defined (L : ℕ) (freq amp ph n0 : ℝ) (frames : ℕ)
    (hL : 0 < L) (hamp : 0 ≤ amp) (hfreq : 0 ≤ freq) (hn0 : 0 ≤ n0) :
    (∀ v : ℝ, some v ∈ (sineCallback1 L ⟨freq, amp, ph, filltable1 L, n0⟩ frames).2 →
      |v| ≤ amp) ∧
    (∀ v : ℝ, some v ∈ (sineCallback2 L ⟨freq, amp, ph, filltable2 L, n0⟩ frames).2 →
      |v| ≤ amp) :=
  ⟨cb1_out_bound L hL frames ⟨freq, amp, ph, filltable1 L, n0⟩ hamp hfreq hn0
      (fun i v hv => filltable1_entry_bound L i v hv),
    cb2_out_bound L hL frames ⟨freq, amp, ph, filltable2 L, n0⟩ hamp hfreq hn0
      (fun i v hv => filltable2_entry_bound L i v hv)⟩

/-- Witness for `output_le_amplitude_defined` at length 4 over two frames. -/
theorem output_le_amplitude_defined_inst :
    0 < 4 ∧ (0 : ℝ) ≤ 1 ∧ (0 : ℝ) ≤ 0 ∧
    ((∀ v : ℝ, some v ∈ (sineCallback1 4 ⟨0, 1, 0, filltable1 4, 0⟩ 2).2 → |v| ≤ 1) ∧
      (∀ v : ℝ, some v ∈ (sineCallback2 4 ⟨0, 1, 0, filltable2 4, 0⟩ 2).2 → |v| ≤ 1)) :=
  ⟨by decide, zero_le_one, le_refl 0,
    output_le_amplitude_defined 4 0 1 0 0 2 (by decide) zero_le_one (le_refl 0)
      (le_refl 0)⟩

/-- C7 counterexample: with the table built by `filltable`, frequency
44100 Hz (phase increment exactly 4 = tableLength) and amplitude 1/2, the
second frame of the truncating callback reads `wavetable[4]` — out of the
4-entry table — so its output slot is not a defined sample bounded by the
amplitude; the claim fails at the reachable phase `n = tableLength`. -/
theorem output_le_amplitude_cex :
    ¬ (∀ o ∈ (sineCallback1 (α := ℝ) 4 ⟨44100, 1/2, 0, filltable1 4, 0⟩ 2).2,
        ∃ v : ℝ, o = some v ∧ |v| ≤ 1/2) := by
  intro hall
  have hwrap : wrap (α := ℝ) 4 (0 + 44100 * ((4 : ℕ) : ℝ) * oneoversr ℝ) = 4 := by
    have harith : (0 : ℝ) + 44100 * ((4 : ℕ) : ℝ) * oneoversr ℝ = 4 := by
      rw [oneoversr, SAMPLE_RATE]
      norm_num
    rw [harith]
    exact wrap_le (by norm_num)
  have h2none : (step1 (α := ℝ) 4 (step1 (α := ℝ) 4 ⟨44100, 1/2, 0, filltable1 4, 0⟩).1).2 =
      none := by
    simp only [step1]
    rw [hwrap]
    have hctr4 : ctrunc (4 : ℝ) = 4 := by simp [ctrunc]
    rw [hctr4]
    have hread : readTable (filltable1 4) (4 : ℤ) = none := by
      simp [readTable, filltable1, List.get?_ofFn, List.ofFnNthVal]
    rw [hread]
    rfl
  have hmem : (step1 (α := ℝ) 4 (step1 (α := ℝ) 4 ⟨44100, 1/2, 0, filltable1 4, 0⟩).1).2 ∈
      (sineCallback1 (α := ℝ) 4 ⟨44100, 1/2, 0, filltable1 4, 0⟩ 2).2 := by
    simp [sineCallback1]
  obtain ⟨v, hv, _⟩ := hall _ hmem
  rw [h2none] at hv
  exact Option.noConfusion hv

end Wavetable
